import Mathlib

/-
  Shallow embedding of `nnni.py` ("Neural Networks with No Imports").

  Numbers are modelled by `ℚ` (exact arithmetic stands in for Python floats).
  Python `ValueError`s are modelled by the `Except` monad with an explicit
  error taxonomy; operations whose dynamic second operand may be either a
  scalar or a matrix take an `Operand`.
-/

namespace NNNI

/-- Error taxonomy of the toolkit.  The Python source raises `ValueError` in
every case; the three constructors correspond to the three kinds of message:
incompatible operand shapes, a non-scalar operand to a scalar-only operation,
and incompatible adjacent layers at network construction. -/
inductive MatrixError where
  | shapeMismatch
  | typeMismatch
  | configurationError
deriving DecidableEq

/-- A dense matrix: `data` is the row-major list of rows, exactly as the
`data` attribute of the Python `Matrix` class. -/
structure Matrix where
  data : List (List ℚ)
deriving DecidableEq

/-- Dynamic second operand of a Python matrix method: an `int`/`float`
(modelled by `ℚ`) or another `Matrix`. -/
inductive Operand where
  | scalar (c : ℚ)
  | matrix (m : Matrix)

/-- Number of rows, `self.nrows = len(data)` (default-constructor path). -/
def Matrix.nrows (m : Matrix) : ℕ := m.data.length

/-- Number of columns, `self.ncols = len(data[0])` (default-constructor path;
`0` for an empty `data`, where Python would raise `IndexError`). -/
def Matrix.ncols (m : Matrix) : ℕ := (m.data.headD []).length

/-- The `size` method: `rows * cols`. -/
def Matrix.size (m : Matrix) : ℕ := m.nrows * m.ncols

/-- Well-formedness: the invariant of §3 of the design (at least one row and
one column, and every row has exactly `ncols` entries). -/
def Matrix.wf (m : Matrix) : Prop :=
  0 < m.nrows ∧ 0 < m.ncols ∧ ∀ row ∈ m.data, row.length = m.ncols

instance (m : Matrix) : Decidable m.wf := by
  unfold Matrix.wf; infer_instance

/-- Entry at row `r`, column `c` (total, defaulting to `0` out of range;
in-range accesses coincide with Python's `data[r][c]`). -/
def Matrix.entry (m : Matrix) (r c : ℕ) : ℚ := (m.data.getD r []).getD c 0

/-- The `map` method: apply `f` to every component. -/
def Matrix.map (m : Matrix) (f : ℚ → ℚ) : Matrix :=
  ⟨m.data.map (fun row => row.map f)⟩

/-- The static `interleave` method: apply `f` to corresponding pairs of
elements.  Python iterates with `zip`, which stops at the shorter of the two
sequences, so no shape validation happens here. -/
def Matrix.interleave (f : ℚ → ℚ → ℚ) (m1 m2 : Matrix) : Matrix :=
  ⟨List.zipWith (fun row1 row2 => List.zipWith f row1 row2) m1.data m2.data⟩

/-- Matrix + Matrix branch of `__add__`: `interleave` with `+`. -/
def Matrix.addM (m1 m2 : Matrix) : Matrix := Matrix.interleave (· + ·) m1 m2

/-- Matrix * Matrix branch of `__mul__`: `interleave` with `*`. -/
def Matrix.mulM (m1 m2 : Matrix) : Matrix := Matrix.interleave (· * ·) m1 m2

/-- The `__sub__` method: `self + (-1*other)`, where `-1*other` dispatches to
`__rmul__`, i.e. an elementwise `· * (-1)`. -/
def Matrix.subM (m1 m2 : Matrix) : Matrix := m1.addM (m2.map (· * (-1)))

/-- The `t` (transpose) method: `result[c][r] = data[r][c]`. -/
def Matrix.t (m : Matrix) : Matrix :=
  ⟨(List.range m.ncols).map (fun c => (List.range m.nrows).map (fun r => m.entry r c))⟩

/-- Python's builtin `sum` over a list: a left fold starting at `0`. -/
def pySum (l : List ℚ) : ℚ := l.foldl (· + ·) 0

/-- The static `dot` method: matrix product, guarded by the eager shape
check `m1.ncols != m2.nrows` which raises (`ShapeMismatch`). -/
def Matrix.dot (m1 m2 : Matrix) : Except MatrixError Matrix :=
  if m1.ncols ≠ m2.nrows then .error .shapeMismatch
  else .ok ⟨(List.range m1.nrows).map (fun r =>
    (List.range m2.ncols).map (fun c =>
      pySum ((List.range m1.ncols).map (fun i => m1.entry r i * m2.entry i c))))⟩

/-- The static `mean` method: `sum(sum(row) for row in data) / size`.
Division by zero (empty matrix, a `ZeroDivisionError` in Python) is the
junk value `0` of rational division. -/
def Matrix.mean (m : Matrix) : ℚ := pySum (m.data.map pySum) / (m.size : ℚ)

/-- The static `maximum` method: componentwise maximum against a scalar
(broadcast) or a matrix (`interleave` with `max`). -/
def Matrix.maximum (m1 : Matrix) : Operand → Matrix
  | .scalar c => m1.map (fun e => max e c)
  | .matrix m2 => Matrix.interleave max m1 m2

/-- The `__add__` method with dynamic dispatch on the operand: scalar
broadcast or elementwise `interleave`. -/
def Matrix.addOp (self : Matrix) : Operand → Matrix
  | .scalar c => self.map (· + c)
  | .matrix m => self.addM m

/-- The `__mul__` method with dynamic dispatch on the operand.  Note that a
`Matrix` operand is accepted and multiplied elementwise — `__mul__` is NOT
wrapped in `ensure_other_is_scalar` (only `__rmul__` is). -/
def Matrix.mulOp (self : Matrix) : Operand → Matrix
  | .scalar c => self.map (· * c)
  | .matrix m => self.mulM m

/-- The `ensure_other_is_scalar` decorator: run the wrapped method when the
operand is a scalar, raise (`TypeMismatch`) otherwise. -/
def ensure_other_is_scalar (method : Matrix → ℚ → Matrix) (self : Matrix) :
    Operand → Except MatrixError Matrix
  | .scalar c => .ok (method self c)
  | .matrix _ => .error .typeMismatch

/-- Scalar body of `__rmul__`: `self * other` elementwise. -/
def Matrix.rmulS (m : Matrix) (c : ℚ) : Matrix := m.map (· * c)

/-- Scalar body of `__truediv__`: `self * (1/other)`. -/
def Matrix.truedivS (m : Matrix) (c : ℚ) : Matrix := m.map (· * (1 / c))

/-- Scalar body of `__pow__` (with `modulo=None`): elementwise `pow`.
Exponents are modelled at integer-valued rationals (the only exponent the
program uses is `2`); `e ^ c.num` is the faithful fragment of Python `pow`
inside exact rational arithmetic. -/
def Matrix.powS (m : Matrix) (c : ℚ) : Matrix := m.map (fun e => e ^ c.num)

/-- Scalar body of `__lt__`: elementwise `int(elem < other)`. -/
def Matrix.ltS (m : Matrix) (c : ℚ) : Matrix :=
  m.map (fun e => if e < c then 1 else 0)

/-- Scalar body of `__le__`. -/
def Matrix.leS (m : Matrix) (c : ℚ) : Matrix :=
  m.map (fun e => if e ≤ c then 1 else 0)

/-- Scalar body of `__eq__`. -/
def Matrix.eqS (m : Matrix) (c : ℚ) : Matrix :=
  m.map (fun e => if e = c then 1 else 0)

/-- Scalar body of `__ne__`. -/
def Matrix.neS (m : Matrix) (c : ℚ) : Matrix :=
  m.map (fun e => if e ≠ c then 1 else 0)

/-- Scalar body of `__gt__`. -/
def Matrix.gtS (m : Matrix) (c : ℚ) : Matrix :=
  m.map (fun e => if c < e then 1 else 0)

/-- Scalar body of `__ge__`. -/
def Matrix.geS (m : Matrix) (c : ℚ) : Matrix :=
  m.map (fun e => if c ≤ e then 1 else 0)

/-- The decorated `__rmul__`. -/
def Matrix.rmulOp : Matrix → Operand → Except MatrixError Matrix :=
  ensure_other_is_scalar Matrix.rmulS

/-- The decorated `__truediv__`. -/
def Matrix.truedivOp : Matrix → Operand → Except MatrixError Matrix :=
  ensure_other_is_scalar Matrix.truedivS

/-- The decorated `__pow__`. -/
def Matrix.powOp : Matrix → Operand → Except MatrixError Matrix :=
  ensure_other_is_scalar Matrix.powS

/-- The decorated `__lt__`. -/
def Matrix.ltOp : Matrix → Operand → Except MatrixError Matrix :=
  ensure_other_is_scalar Matrix.ltS

/-- The decorated `__le__`. -/
def Matrix.leOp : Matrix → Operand → Except MatrixError Matrix :=
  ensure_other_is_scalar Matrix.leS

/-- The decorated `__eq__`. -/
def Matrix.eqOp : Matrix → Operand → Except MatrixError Matrix :=
  ensure_other_is_scalar Matrix.eqS

/-- The decorated `__ne__`. -/
def Matrix.neOp : Matrix → Operand → Except MatrixError Matrix :=
  ensure_other_is_scalar Matrix.neS

/-- The decorated `__gt__`. -/
def Matrix.gtOp : Matrix → Operand → Except MatrixError Matrix :=
  ensure_other_is_scalar Matrix.gtS

/-- The decorated `__ge__`. -/
def Matrix.geOp : Matrix → Operand → Except MatrixError Matrix :=
  ensure_other_is_scalar Matrix.geS

/-- The `argmax` method, linearized: the nested row-major for-loops become a
single left fold over the row-major enumeration of coordinate/value pairs. -/
def Matrix.enumPairs (m : Matrix) : List ((ℕ × ℕ) × ℚ) :=
  (m.data.enum.map (fun p => p.2.enum.map (fun q => ((p.1, q.1), q.2)))).flatten

/-- One comparison step of the `argmax` scan: replace the current best only
on a strictly larger value, so ties keep the earliest position. -/
def scanStep (acc p : (ℕ × ℕ) × ℚ) : (ℕ × ℕ) × ℚ :=
  if acc.2 < p.2 then p else acc

/-- The `argmax` method: start from `((0,0), data[0][0])` and scan all
entries in row-major order. -/
def Matrix.argmax (m : Matrix) : ℕ × ℕ :=
  (m.enumPairs.foldl scanStep ((0, 0), (m.data.headD []).getD 0 0)).1

/-- Modulus of the generator, `MERSENNE_PRIME` in the source. -/
def MERSENNE_PRIME : ℕ := 162259276829213363391578010288127

/-- Multiplier `A` of the generator. -/
def A : ℕ := 2305843009213693951

/-- Increment `B` of the generator. -/
def B : ℕ := 15485863

/-- One state transition of the `random` generator:
`state = (state*A + B) % MERSENNE_PRIME`. -/
def lcgStep (state : ℕ) : ℕ := (state * A + B) % MERSENNE_PRIME

/-- Creating the generator object `random(seed)`: the loop that advances the
state 20 times before the first value is yielded. -/
def randomInit (seed : ℕ) : ℕ := (List.range 20).foldl (fun s _ => lcgStep s) seed

/-- One `next(...)` on the generator: advance the state, set
`cand = state/(MERSENNE_PRIME + 1)` and yield `1000*cand - int(1000*cand)`
(the candidate's first 3 decimal places are dropped; `cand ≥ 0`, so `int`
truncation is the floor).  Returns the yielded value and the new state. -/
def randNext (state : ℕ) : ℚ × ℕ :=
  let s2 := lcgStep state
  let cand : ℚ := (s2 : ℚ) / ((MERSENNE_PRIME : ℚ) + 1)
  (1000 * cand - ((1000 * cand).floor : ℚ), s2)

/-- One row of `Matrix.random`: `ncols` sequential draws `2*next(gen) - 1`. -/
def randRow (ncols : ℕ) (state : ℕ) : List ℚ × ℕ :=
  (List.range ncols).foldl
    (fun acc _ =>
      let (v, s2) := randNext acc.2
      (acc.1 ++ [2 * v - 1], s2))
    ([], state)

/-- The static `Matrix.random` factory: `nrows` rows of `ncols` draws each,
taken sequentially (row-major) from the generator state. -/
def Matrix.randomFrom (nrows ncols : ℕ) (state : ℕ) : Matrix × ℕ :=
  let rows := (List.range nrows).foldl
    (fun acc _ =>
      let (row, s2) := randRow ncols acc.2
      (acc.1 ++ [row], s2))
    ([], state)
  (⟨rows.1⟩, rows.2)

/-- An activation function: the two operations the `ActivationFunction`
abstract base class requires. -/
structure ActivationFunction where
  f : Matrix → Matrix
  df : Matrix → Matrix

/-- The `LeakyReLU` activation.  `f(x) = Matrix.maximum(x, alpha*x)`, where
`alpha*x` dispatches through `__rmul__` (elementwise `· * alpha`);
`df(x) = Matrix.maximum(x > 0, alpha)`, where `x > 0` is the elementwise
`int(elem > 0)` comparison matrix. -/
def LeakyReLU (alpha : ℚ) : ActivationFunction where
  f := fun x => Matrix.maximum x (.matrix (x.rmulS alpha))
  df := fun x => Matrix.maximum (x.gtS 0) (.scalar alpha)

/-- A loss function: the two operations the `LossFunction` abstract base
class requires. -/
structure LossFunction where
  loss : Matrix → Matrix → ℚ
  dloss : Matrix → Matrix → Matrix

/-- The `MSELoss` loss function: `loss = Matrix.mean((output - target)**2)`
(the `**2` goes through the scalar-guarded `__pow__` with exponent `2`);
`dloss = 2*(output - target)/(output.size())` (`__rmul__` by `2`, then the
scalar-guarded `__truediv__` by the size). -/
def MSELoss : LossFunction where
  loss := fun output target => Matrix.mean ((output.subM target).powS 2)
  dloss := fun output target =>
    ((output.subM target).rmulS 2).truedivS ((output.size : ℚ))

/-- A `Layer`: the `ins`/`outs` neuron counts, the shared activation
function, and the owned weight and bias matrices. -/
structure Layer where
  ins : ℕ
  outs : ℕ
  act_function : ActivationFunction
  W : Matrix
  b : Matrix

/-- The `Layer.forward_pass` method: `act.f(dot(W, x) + b)`. -/
def Layer.forward_pass (l : Layer) (x : Matrix) : Except MatrixError Matrix := do
  let wx ← Matrix.dot l.W x
  .ok (l.act_function.f (wx.addM l.b))

/-- A `NeuralNetwork`: the ordered layers, the shared loss function, and the
learning rate. -/
structure NeuralNetwork where
  layers : List Layer
  loss_function : LossFunction
  lr : ℚ

/-- The adjacency check of `NeuralNetwork.__init__`: every adjacent pair of
layers satisfies `l1.outs == l2.ins` (vacuously true with fewer than two
layers, as `zip(layers[:-1], layers[1:])` is then empty). -/
def layersCompatible : List Layer → Bool
  | l1 :: l2 :: rest => l1.outs == l2.ins && layersCompatible (l2 :: rest)
  | _ => true

/-- The `NeuralNetwork` constructor: store the fields and raise
(`ConfigurationError`) when some adjacent pair of layers is incompatible. -/
def NeuralNetwork.init (layers : List Layer) (loss : LossFunction) (lr : ℚ) :
    Except MatrixError NeuralNetwork :=
  if layersCompatible layers then .ok ⟨layers, loss, lr⟩
  else .error .configurationError

/-- Folding an input through a list of layers, the loop body of
`NeuralNetwork.forward_pass`. -/
def forwardList : List Layer → Matrix → Except MatrixError Matrix
  | [], out => .ok out
  | l :: ls, out => do
      let out2 ← l.forward_pass out
      forwardList ls out2

/-- The `NeuralNetwork.forward_pass` method. -/
def NeuralNetwork.forward_pass (net : NeuralNetwork) (x : Matrix) :
    Except MatrixError Matrix :=
  forwardList net.layers x

/-- The forward sweep of `train`: builds the list `xs` of inputs fed to each
layer and returns it split as (`xs` after the final `xs.pop()`, the popped
final output). -/
def forwardTrace : List Layer → Matrix → Except MatrixError (List Matrix × Matrix)
  | [], x => .ok ([], x)
  | l :: ls, x => do
      let y ← l.forward_pass x
      let (ins, out) ← forwardTrace ls y
      .ok (x :: ins, out)

/-- One iteration of the backward loop of `train`, for one `(layer, x)` pair:
recompute `y = dot(W, x) + b`, form `db = df(y) * dx` (elementwise) and
`dW = dot(db, x.t())`, replace the parameters by `W - lr*dW` and
`b - lr*db` (`lr*m` dispatches through `__rmul__`, an elementwise
`· * lr`), and propagate `dx = dot(W.t(), db)` read from the layer's
just-assigned (post-update) weight attribute. -/
def backStep (lr : ℚ) (layer : Layer) (xi dx : Matrix) :
    Except MatrixError (Layer × Matrix) := do
  let wx ← Matrix.dot layer.W xi
  let y := wx.addM layer.b
  let db := (layer.act_function.df y).mulM dx
  let dW ← Matrix.dot db xi.t
  let W2 := layer.W.subM (dW.rmulS lr)
  let b2 := layer.b.subM (db.rmulS lr)
  let dx2 ← Matrix.dot W2.t db
  .ok ({ layer with W := W2, b := b2 }, dx2)

/-- The backward loop of `train` over the zipped list of reversed layers and
reversed cached inputs, threading the propagated gradient; returns the
updated layers in processing (deepest-first) order. -/
def backLoop (lr : ℚ) : List (Layer × Matrix) → Matrix → Except MatrixError (List Layer)
  | [], _ => .ok []
  | (layer, xi) :: rest, dx => do
      let (l2, dx2) ← backStep lr layer xi dx
      let rest2 ← backLoop lr rest dx2
      .ok (l2 :: rest2)

/-- The `NeuralNetwork.train` method: forward sweep caching every layer
input, `dx = dloss(final_output, t)`, then the backward loop over
`zip(layers[::-1], xs[::-1])`; the mutated layer list (processing order
reversed back to network order) replaces `net.layers`. -/
def NeuralNetwork.train (net : NeuralNetwork) (x t : Matrix) :
    Except MatrixError NeuralNetwork := do
  let (ins, out) ← forwardTrace net.layers x
  let dx := net.loss_function.dloss out t
  let upd ← backLoop net.lr (net.layers.reverse.zip ins.reverse) dx
  .ok { net with layers := upd.reverse }

/-- Specification-side forward sweep, following §4.4 step 1 of the spec
(claim C1): fold the input through the layers, retaining every intermediate
input in an ordered list; the list is accumulated newest-first, so its head
is the final output and its tail the cached layer inputs, deepest first. -/
def forwardRetain (layers : List Layer) (x : Matrix) :
    Except MatrixError (List Matrix) :=
  layers.foldlM
    (fun xs layer => do
      let out ← layer.forward_pass (xs.headD x)
      .ok (out :: xs))
    [x]

/-- Specification-side backward step, following §4.4 step 3 of the spec
(claim C1): with `p = (layer, cached input)` and `acc = (already updated
deeper layers, gradient w.r.t. this layer's output)`, recompute the
pre-activation, form `dBias` and `dWeight`, replace the parameters
immediately, and propagate the gradient for the next (shallower) layer. -/
def backSpecStep (lr : ℚ) (acc : List Layer × Matrix) (p : Layer × Matrix) :
    Except MatrixError (List Layer × Matrix) := do
  let wx ← Matrix.dot p.1.W p.2
  let y := wx.addM p.1.b
  let dBias := (p.1.act_function.df y).mulM acc.2
  let dWeight ← Matrix.dot dBias p.2.t
  let W2 := p.1.W.subM (dWeight.rmulS lr)
  let b2 := p.1.b.subM (dBias.rmulS lr)
  let dx2 ← Matrix.dot W2.t dBias
  .ok (({ p.1 with W := W2, b := b2 } : Layer) :: acc.1, dx2)

/-- Specification-side rendering of one `train` call, written from the
numbered steps of §4.4 (claim C1): forward sweep retaining every layer
input, initialize the output gradient with `dloss`, then a single fold over
the layers in reverse order pairing each with its cached input, updating
parameters in place as it goes.  The updated layers are accumulated
shallowest-last, so the accumulator is already in network order. -/
def trainSpec (net : NeuralNetwork) (x t : Matrix) :
    Except MatrixError NeuralNetwork := do
  let trace ← forwardRetain net.layers x
  match trace with
  | [] => .error .configurationError
  | out :: inputsRev => do
      let res ← (net.layers.reverse.zip inputsRev).foldlM
        (backSpecStep net.lr) ([], net.loss_function.dloss out t)
      .ok { net with layers := res.1 }

/-- Claim-side variant of the backward step (claim C2's words): identical to
`backStep` except that the propagated gradient is computed from the
PRE-update weight matrix `W` instead of the just-assigned `W - lr*dW`. -/
def backStepPre (lr : ℚ) (layer : Layer) (xi dx : Matrix) :
    Except MatrixError (Layer × Matrix) := do
  let wx ← Matrix.dot layer.W xi
  let y := wx.addM layer.b
  let db := (layer.act_function.df y).mulM dx
  let dW ← Matrix.dot db xi.t
  let W2 := layer.W.subM (dW.rmulS lr)
  let b2 := layer.b.subM (db.rmulS lr)
  let dx2 ← Matrix.dot layer.W.t db
  .ok ({ layer with W := W2, b := b2 }, dx2)

/-- Backward loop built on `backStepPre` (claim C2's words). -/
def backLoopPre (lr : ℚ) : List (Layer × Matrix) → Matrix → Except MatrixError (List Layer)
  | [], _ => .ok []
  | (layer, xi) :: rest, dx => do
      let (l2, dx2) ← backStepPre lr layer xi dx
      let rest2 ← backLoopPre lr rest dx2
      .ok (l2 :: rest2)

/-- Claim-side variant of `train` (claim C2's words): propagate the gradient
with the pre-update weight matrix. -/
def NeuralNetwork.trainPre (net : NeuralNetwork) (x t : Matrix) :
    Except MatrixError NeuralNetwork := do
  let (ins, out) ← forwardTrace net.layers x
  let dx := net.loss_function.dloss out t
  let upd ← backLoopPre net.lr (net.layers.reverse.zip ins.reverse) dx
  .ok { net with layers := upd.reverse }

/-- Observable parameters of a network: the weight and bias data of every
layer, in order (the activation and loss closures carry no state). -/
def netParams (net : NeuralNetwork) : List (List (List ℚ) × List (List ℚ)) :=
  net.layers.map (fun l => (l.W.data, l.b.data))

/-- A concrete 1-in/1-out layer with `LeakyReLU 1` activation, weight
`[[1]]` and bias `[[0]]`, used to separate pre- and post-update gradient
propagation. -/
def probeLayer : Layer := ⟨1, 1, LeakyReLU 1, ⟨[[1]]⟩, ⟨[[0]]⟩⟩

/-- A concrete two-layer network with MSE loss and learning rate 1. -/
def probeNet : NeuralNetwork := ⟨[probeLayer, probeLayer], MSELoss, 1⟩

/-! Basic rewriting lemmas for the `Except` monad and the list helpers. -/

@[simp]
theorem ok_bind {ε α β : Type} (a : α) (f : α → Except ε β) :
    (Except.ok a : Except ε α) >>= f = f a := rfl

@[simp]
theorem error_bind {ε α β : Type} (e : ε) (f : α → Except ε β) :
    (Except.error e : Except ε α) >>= f = .error e := rfl

@[simp]
theorem map_ok {ε α β : Type} (g : α → β) (a : α) :
    (Except.ok a : Except ε α).map g = .ok (g a) := rfl

@[simp]
theorem map_error {ε α β : Type} (g : α → β) (e : ε) :
    (Except.error e : Except ε α).map g = .error e := rfl

@[simp]
theorem pure_except {ε α : Type} (a : α) :
    (pure a : Except ε α) = .ok a := rfl

theorem pySum_foldl (l : List ℚ) (a : ℚ) : l.foldl (· + ·) a = a + l.sum := by
  induction l generalizing a with
  | nil => simp
  | cons x xs ih => simp [List.foldl_cons, ih (a + x), List.sum_cons]; ring

theorem pySum_eq_sum (l : List ℚ) : pySum l = l.sum := by
  simp [pySum, pySum_foldl]

theorem sum_range_list (n : ℕ) (f : ℕ → ℚ) :
    ((List.range n).map f).sum = ∑ i ∈ Finset.range n, f i := by
  induction n with
  | zero => simp
  | succ k ih => simp [List.range_succ, Finset.sum_range_succ, ih]

theorem list_sum_eq_finset (l : List ℚ) :
    l.sum = ∑ i ∈ Finset.range l.length, l.getD i 0 := by
  induction l with
  | nil => simp
  | cons x xs ih =>
      rw [List.sum_cons, ih, List.length_cons,
        Finset.sum_range_succ' (fun i => (x :: xs).getD i 0)]
      simp [List.getD_cons_succ, List.getD_cons_zero, add_comm]

theorem getD_range_map {α : Type} (f : ℕ → α) (n k : ℕ) (hk : k < n) (d : α) :
    ((List.range n).map f).getD k d = f k := by
  have hb : k < ((List.range n).map f).length := by simpa using hk
  rw [List.getD_eq_getElem _ _ hb, List.getElem_map]
  simp

theorem getD_map_lt {α β : Type} (f : α → β) (l : List α) (k : ℕ) (hk : k < l.length)
    (d : β) (d2 : α) : (l.map f).getD k d = f (l.getD k d2) := by
  have hb : k < (l.map f).length := by simpa using hk
  rw [List.getD_eq_getElem _ _ hb, List.getD_eq_getElem _ _ hk, List.getElem_map]

theorem getD_zipWith_lt {α : Type} (f : α → α → α) (l1 l2 : List α) (k : ℕ)
    (h1 : k < l1.length) (h2 : k < l2.length) (d : α) :
    (List.zipWith f l1 l2).getD k d = f (l1.getD k d) (l2.getD k d) := by
  have hb : k < (List.zipWith f l1 l2).length := by
    rw [List.length_zipWith]
    exact lt_min h1 h2
  rw [List.getD_eq_getElem _ _ hb, List.getD_eq_getElem _ _ h1,
    List.getD_eq_getElem _ _ h2]
  exact @List.getElem_zipWith α α α f l1 l2 k hb

/-! Shape and entry lemmas for the matrix operations. -/

theorem nrows_map (m : Matrix) (f : ℚ → ℚ) : (m.map f).nrows = m.nrows := by
  simp [Matrix.map, Matrix.nrows]

theorem ncols_map (m : Matrix) (f : ℚ → ℚ) : (m.map f).ncols = m.ncols := by
  cases h : m.data with
  | nil => simp [Matrix.map, Matrix.ncols, h]
  | cons r rs => simp [Matrix.map, Matrix.ncols, h]

theorem row_length_eq {m : Matrix} (h : m.wf) {r : ℕ} (hr : r < m.nrows) :
    (m.data.getD r []).length = m.ncols := by
  rw [List.getD_eq_getElem _ _ hr]
  exact h.2.2 _ (List.getElem_mem hr)

theorem entry_map {m : Matrix} (f : ℚ → ℚ) (h : m.wf) {r c : ℕ}
    (hr : r < m.nrows) (hc : c < m.ncols) :
    (m.map f).entry r c = f (m.entry r c) := by
  have hrl : r < m.data.length := hr
  have hcl : c < (m.data.getD r []).length := by rw [row_length_eq h hr]; exact hc
  simp only [Matrix.map, Matrix.entry]
  rw [getD_map_lt (fun row => row.map f) m.data r hrl [] []]
  exact getD_map_lt f _ c hcl 0 0

theorem wf_map {m : Matrix} (f : ℚ → ℚ) (h : m.wf) : (m.map f).wf := by
  refine ⟨?_, ?_, ?_⟩
  · rw [nrows_map]; exact h.1
  · rw [ncols_map]; exact h.2.1
  · intro row hrow
    simp only [Matrix.map, List.mem_map] at hrow
    obtain ⟨row0, hrow0, rfl⟩ := hrow
    rw [ncols_map]
    simpa using h.2.2 row0 hrow0

theorem nrows_interleave (f : ℚ → ℚ → ℚ) (m1 m2 : Matrix) :
    (Matrix.interleave f m1 m2).nrows = min m1.nrows m2.nrows := by
  simp [Matrix.interleave, Matrix.nrows, List.length_zipWith]

theorem ncols_interleave (f : ℚ → ℚ → ℚ) (m1 m2 : Matrix)
    (h1 : 0 < m1.nrows) (h2 : 0 < m2.nrows) :
    (Matrix.interleave f m1 m2).ncols = min m1.ncols m2.ncols := by
  rcases m1 with ⟨data1⟩
  rcases m2 with ⟨data2⟩
  cases data1 with
  | nil => simp [Matrix.nrows] at h1
  | cons r1 rs1 =>
      cases data2 with
      | nil => simp [Matrix.nrows] at h2
      | cons r2 rs2 =>
          simp [Matrix.interleave, Matrix.ncols, List.length_zipWith]

theorem entry_interleave (f : ℚ → ℚ → ℚ) {m1 m2 : Matrix}
    (h1 : m1.wf) (h2 : m2.wf) {r c : ℕ}
    (hr1 : r < m1.nrows) (hr2 : r < m2.nrows)
    (hc1 : c < m1.ncols) (hc2 : c < m2.ncols) :
    (Matrix.interleave f m1 m2).entry r c = f (m1.entry r c) (m2.entry r c) := by
  simp only [Matrix.interleave, Matrix.entry]
  rw [getD_zipWith_lt _ m1.data m2.data r hr1 hr2 []]
  rw [getD_zipWith_lt f _ _ c ?_ ?_ 0]
  · rw [row_length_eq h1 hr1]; exact hc1
  · rw [row_length_eq h2 hr2]; exact hc2

theorem wf_interleave (f : ℚ → ℚ → ℚ) {m1 m2 : Matrix} (h1 : m1.wf) (h2 : m2.wf) :
    (Matrix.interleave f m1 m2).wf := by
  refine ⟨?_, ?_, ?_⟩
  · rw [nrows_interleave]; exact lt_min h1.1 h2.1
  · rw [ncols_interleave f m1 m2 h1.1 h2.1]; exact lt_min h1.2.1 h2.2.1
  · intro row hrow
    rw [ncols_interleave f m1 m2 h1.1 h2.1]
    simp only [Matrix.interleave] at hrow
    rw [List.mem_iff_getElem] at hrow
    obtain ⟨i, hi, rfl⟩ := hrow
    rw [List.getElem_zipWith, List.length_zipWith]
    rw [List.length_zipWith] at hi
    congr 1
    · exact h1.2.2 _ (List.getElem_mem (by omega))
    · exact h2.2.2 _ (List.getElem_mem (by omega))

/-! Claim theorems. -/

/-- C5 (amended): the scalar-only operations that are wrapped in
`ensure_other_is_scalar` — reflected multiplication, true division, power,
and all six comparisons — raise `TypeMismatch` when the second operand is a
`Matrix`; plain multiplication is not among them (see the counterexample). -/
theorem scalar_only_ops_reject_matrix (self other : Matrix) :
    Matrix.rmulOp self (.matrix other) = .error .typeMismatch ∧
    Matrix.truedivOp self (.matrix other) = .error .typeMismatch ∧
    Matrix.powOp self (.matrix other) = .error .typeMismatch ∧
    Matrix.ltOp self (.matrix other) = .error .typeMismatch ∧
    Matrix.leOp self (.matrix other) = .error .typeMismatch ∧
    Matrix.eqOp self (.matrix other) = .error .typeMismatch ∧
    Matrix.neOp self (.matrix other) = .error .typeMismatch ∧
    Matrix.gtOp self (.matrix other) = .error .typeMismatch ∧
    Matrix.geOp self (.matrix other) = .error .typeMismatch :=
  ⟨rfl, rfl, rfl, rfl, rfl, rfl, rfl, rfl, rfl⟩

/-- C5 (counterexample): `__mul__` is not scalar-guarded — multiplying a
matrix by another matrix computes the elementwise product instead of
raising `TypeMismatch`. -/
theorem mul_matrix_computes_elementwise :
    Matrix.mulOp ⟨[[2]]⟩ (.matrix ⟨[[3]]⟩) = ⟨[[6]]⟩ := by
  norm_num [Matrix.mulOp, Matrix.mulM, Matrix.interleave]

/-- C4 (counterexample): `interleave` on two matrices of different shapes
does not raise `ShapeMismatch`; it silently returns the matrix built from
the overlapping positions only (`zip` truncation). -/
theorem interleave_truncates_silently :
    (Matrix.mk [[1, 2], [3, 4]]).nrows ≠ (Matrix.mk [[10]]).nrows ∧
    (Matrix.mk [[1, 2], [3, 4]]).ncols ≠ (Matrix.mk [[10]]).ncols ∧
    Matrix.interleave (· + ·) ⟨[[1, 2], [3, 4]]⟩ ⟨[[10]]⟩ = ⟨[[11]]⟩ :=
  ⟨by decide, by decide, by norm_num [Matrix.interleave]⟩

/-- C6 (counterexample): for `alpha = 2` the derivative of `LeakyReLU` at a
strictly positive entry is `max(1, 2) = 2`, not the `1` the claim demands
for every parameter. -/
theorem leakyrelu_df_not_one_for_large_alpha :
    (LeakyReLU 2).df ⟨[[1]]⟩ = ⟨[[2]]⟩ ∧ (Matrix.mk [[2]]) ≠ ⟨[[1]]⟩ :=
  ⟨by norm_num [LeakyReLU, Matrix.maximum, Matrix.gtS, Matrix.map], by decide⟩

/-- C9: random-matrix construction is deterministic in the seed — two
freshly constructed generators given equal seeds yield element-for-element
identical matrices of the same shape. -/
theorem random_matrix_deterministic (seed1 seed2 : ℕ) (h : seed1 = seed2)
    (nrows ncols : ℕ) :
    (Matrix.randomFrom nrows ncols (randomInit seed1)).1 =
      (Matrix.randomFrom nrows ncols (randomInit seed2)).1 := by
  rw [h]

/-- C9 (witness): the two-run equality evaluated at seed 42 on a 2×2
matrix. -/
theorem random_matrix_deterministic_witness :
    (42 : ℕ) = 42 ∧
    (Matrix.randomFrom 2 2 (randomInit 42)).1 =
      (Matrix.randomFrom 2 2 (randomInit 42)).1 :=
  ⟨rfl, random_matrix_deterministic 42 42 rfl 2 2⟩

/-- C10: constructing a `NeuralNetwork` from the empty layer list succeeds
(the adjacency check is vacuous), and the forward pass of such a network
returns its input unchanged. -/
theorem empty_network_forward_id (loss : LossFunction) (lr : ℚ) (x : Matrix) :
    NeuralNetwork.init [] loss lr = .ok ⟨[], loss, lr⟩ ∧
    NeuralNetwork.forward_pass ⟨[], loss, lr⟩ x = .ok x :=
  ⟨rfl, rfl⟩

set_option maxHeartbeats 2000000 in
theorem train_probe_eval :
    (NeuralNetwork.train probeNet ⟨[[1]]⟩ ⟨[[0]]⟩).map netParams =
      .ok [([[3]], [[2]]), ([[-1]], [[-2]])] := by
  norm_num [NeuralNetwork.train, probeNet, probeLayer,
    forwardTrace, Layer.forward_pass, Matrix.dot, pySum, List.foldl,
    List.range_succ, Matrix.entry, Matrix.addM, Matrix.mulM, Matrix.subM,
    Matrix.rmulS, Matrix.truedivS, Matrix.interleave, Matrix.map, Matrix.t,
    LeakyReLU, Matrix.maximum, Matrix.gtS, MSELoss, Matrix.mean, Matrix.size,
    Matrix.nrows, Matrix.ncols, backLoop, backStep, netParams]

set_option maxHeartbeats 2000000 in
theorem trainPre_probe_eval :
    (NeuralNetwork.trainPre probeNet ⟨[[1]]⟩ ⟨[[0]]⟩).map netParams =
      .ok [([[-1]], [[-2]]), ([[-1]], [[-2]])] := by
  norm_num [NeuralNetwork.trainPre, probeNet, probeLayer,
    forwardTrace, Layer.forward_pass, Matrix.dot, pySum, List.foldl,
    List.range_succ, Matrix.entry, Matrix.addM, Matrix.mulM, Matrix.subM,
    Matrix.rmulS, Matrix.truedivS, Matrix.interleave, Matrix.map, Matrix.t,
    LeakyReLU, Matrix.maximum, Matrix.gtS, MSELoss, Matrix.mean, Matrix.size,
    Matrix.nrows, Matrix.ncols, backLoopPre, backStepPre, netParams]

/-- C2 (counterexample): on a concrete two-layer network, the training step
of the code (which propagates the gradient through the just-updated weight
matrix) produces different parameters from the claim's variant that
propagates through the pre-update weight matrix; hence the claim's
propagation rule is false of the code. -/
theorem train_differs_from_preupdate_variant :
    (NeuralNetwork.train probeNet ⟨[[1]]⟩ ⟨[[0]]⟩).map netParams ≠
      (NeuralNetwork.trainPre probeNet ⟨[[1]]⟩ ⟨[[0]]⟩).map netParams := by
  rw [train_probe_eval, trainPre_probe_eval]
  simp only [ne_eq, Except.ok.injEq]
  norm_num

/-- C6 (amended): the forward map of `LeakyReLU(alpha)` is the elementwise
maximum of `x` and `alpha*x` for every parameter; the derivative is the
elementwise `max(int(entry > 0), alpha)`, which coincides with "1 where the
entry is strictly positive and `alpha` otherwise (0 included)" exactly when
`0 ≤ alpha ≤ 1`; the two α = 1/10 examples of the spec hold as stated. -/
theorem leakyrelu_spec :
    (∀ (alpha : ℚ) (x : Matrix), x.wf → ∀ r c, r < x.nrows → c < x.ncols →
      ((LeakyReLU alpha).f x).entry r c = max (x.entry r c) (alpha * x.entry r c)) ∧
    (∀ (alpha : ℚ) (x : Matrix), 0 ≤ alpha → alpha ≤ 1 → x.wf →
      ∀ r c, r < x.nrows → c < x.ncols →
      ((LeakyReLU alpha).df x).entry r c =
        if 0 < x.entry r c then 1 else alpha) ∧
    (LeakyReLU (1/10)).f ⟨[[-2, 0, 2]]⟩ = ⟨[[-1/5, 0, 2]]⟩ ∧
    (LeakyReLU (1/10)).df ⟨[[-2, 0, 2]]⟩ = ⟨[[1/10, 1/10, 1]]⟩ := by
  refine ⟨?_, ?_, ?_, ?_⟩
  · intro alpha x hx r c hr hc
    have hx2 : (x.rmulS alpha).wf := wf_map _ hx
    have e1 : ((LeakyReLU alpha).f x).entry r c =
        max (x.entry r c) ((x.rmulS alpha).entry r c) := by
      apply entry_interleave max hx hx2 hr ?_ hc ?_
      · show r < (x.map _).nrows
        rw [nrows_map]; exact hr
      · show c < (x.map _).ncols
        rw [ncols_map]; exact hc
    rw [e1, Matrix.rmulS, entry_map _ hx hr hc, mul_comm]
  · intro alpha x h0 h1 hx r c hr hc
    have hx2 : (x.gtS 0).wf := wf_map _ hx
    have e1 : ((LeakyReLU alpha).df x).entry r c =
        max ((x.gtS 0).entry r c) alpha := by
      apply entry_map (fun e => max e alpha) hx2
      · show r < (x.map _).nrows
        rw [nrows_map]; exact hr
      · show c < (x.map _).ncols
        rw [ncols_map]; exact hc
    rw [e1, Matrix.gtS, entry_map _ hx hr hc]
    by_cases hpos : 0 < x.entry r c
    · rw [if_pos hpos, if_pos hpos]
      exact max_eq_left h1
    · rw [if_neg hpos, if_neg hpos]
      exact max_eq_right h0
  · norm_num [LeakyReLU, Matrix.maximum, Matrix.rmulS, Matrix.interleave, Matrix.map]
  · norm_num [LeakyReLU, Matrix.maximum, Matrix.gtS, Matrix.map]

/-- C6 (witness): the amended derivative characterization instantiated at
`alpha = 1/10` on the matrix `[[-2, 0, 2]]`, at the boundary entry 0 and at
the positive entry 2. -/
theorem leakyrelu_spec_witness :
    (Matrix.mk [[-2, 0, 2]]).wf ∧ (0:ℚ) ≤ 1/10 ∧ (1/10:ℚ) ≤ 1 ∧
    ((LeakyReLU (1/10)).f ⟨[[-2, 0, 2]]⟩).entry 0 2 =
      max ((Matrix.mk [[-2, 0, 2]]).entry 0 2)
        ((1/10) * (Matrix.mk [[-2, 0, 2]]).entry 0 2) ∧
    ((LeakyReLU (1/10)).df ⟨[[-2, 0, 2]]⟩).entry 0 1 =
      (if 0 < (Matrix.mk [[-2, 0, 2]]).entry 0 1 then 1 else 1/10) ∧
    ((LeakyReLU (1/10)).df ⟨[[-2, 0, 2]]⟩).entry 0 2 =
      (if 0 < (Matrix.mk [[-2, 0, 2]]).entry 0 2 then 1 else 1/10) :=
  ⟨by decide, by norm_num, by norm_num,
    leakyrelu_spec.1 (1/10) ⟨[[-2, 0, 2]]⟩ (by decide) 0 2 (by decide) (by decide),
    leakyrelu_spec.2.1 (1/10) ⟨[[-2, 0, 2]]⟩ (by norm_num) (by norm_num)
      (by decide) 0 1 (by decide) (by decide),
    leakyrelu_spec.2.1 (1/10) ⟨[[-2, 0, 2]]⟩ (by norm_num) (by norm_num)
      (by decide) 0 2 (by decide) (by decide)⟩

theorem wf_subM {o t : Matrix} (ho : o.wf) (ht : t.wf) : (o.subM t).wf :=
  wf_interleave _ ho (wf_map _ ht)

theorem nrows_subM (o t : Matrix) : (o.subM t).nrows = min o.nrows t.nrows := by
  rw [Matrix.subM, Matrix.addM, nrows_interleave]
  show min o.nrows (t.map _).nrows = _
  rw [nrows_map]

theorem ncols_subM {o t : Matrix} (ho : 0 < o.nrows) (ht : 0 < t.nrows) :
    (o.subM t).ncols = min o.ncols t.ncols := by
  rw [Matrix.subM, Matrix.addM, ncols_interleave]
  · show min o.ncols (t.map _).ncols = _
    rw [ncols_map]
  · exact ho
  · show 0 < (t.map _).nrows
    rw [nrows_map]; exact ht

theorem entry_subM {o t : Matrix} (ho : o.wf) (ht : t.wf) {r c : ℕ}
    (hro : r < o.nrows) (hrt : r < t.nrows) (hco : c < o.ncols) (hct : c < t.ncols) :
    (o.subM t).entry r c = o.entry r c - t.entry r c := by
  rw [Matrix.subM, Matrix.addM]
  rw [entry_interleave _ ho (wf_map _ ht) hro ?_ hco ?_]
  · rw [entry_map _ ht hrt hct]; ring
  · show r < (t.map _).nrows
    rw [nrows_map]; exact hrt
  · show c < (t.map _).ncols
    rw [ncols_map]; exact hct

/-- Sum of all entries of a well-formed matrix, as a double finite sum. -/
theorem sum_entries (m : Matrix) (h : m.wf) :
    pySum (m.data.map pySum) =
      ∑ r ∈ Finset.range m.nrows, ∑ c ∈ Finset.range m.ncols, m.entry r c := by
  rw [pySum_eq_sum, list_sum_eq_finset]
  simp only [List.length_map]
  apply Finset.sum_congr rfl
  intro r hr
  rw [Finset.mem_range] at hr
  rw [getD_map_lt pySum m.data r hr 0 []]
  rw [pySum_eq_sum, list_sum_eq_finset, row_length_eq h hr]
  exact Finset.sum_congr rfl (fun c _ => rfl)

/-- C7 (confirmed): `MSELoss.loss` is the arithmetic mean of the squared
entrywise differences, `MSELoss.dloss` is `2*(o-t)` divided by the number
of entries with the shape of `o`, and both concrete examples of the spec
hold. -/
theorem mse_spec :
    (∀ o t : Matrix, o.wf → t.wf → o.nrows = t.nrows → o.ncols = t.ncols →
      MSELoss.loss o t =
        (∑ r ∈ Finset.range o.nrows, ∑ c ∈ Finset.range o.ncols,
          (o.entry r c - t.entry r c) ^ 2) / (o.size : ℚ) ∧
      (MSELoss.dloss o t).nrows = o.nrows ∧
      (MSELoss.dloss o t).ncols = o.ncols ∧
      ∀ r c, r < o.nrows → c < o.ncols →
        (MSELoss.dloss o t).entry r c =
          2 * (o.entry r c - t.entry r c) / (o.size : ℚ)) ∧
    MSELoss.loss ⟨[[1],[2]]⟩ ⟨[[1],[0]]⟩ = 2 ∧
    MSELoss.dloss ⟨[[1],[2]]⟩ ⟨[[1],[0]]⟩ = ⟨[[0],[2]]⟩ := by
  refine ⟨?_, ?_, ?_⟩
  · intro o t ho ht hrows hcols
    have hsub : (o.subM t).wf := wf_subM ho ht
    have hnr : (o.subM t).nrows = o.nrows := by
      rw [nrows_subM, ← hrows, min_self]
    have hnc : (o.subM t).ncols = o.ncols := by
      rw [ncols_subM ho.1 (hrows ▸ ho.1), ← hcols, min_self]
    refine ⟨?_, ?_, ?_, ?_⟩
    · show Matrix.mean ((o.subM t).powS 2) = _
      have hpw : ((o.subM t).powS 2).wf := wf_map _ hsub
      rw [Matrix.mean, sum_entries _ hpw]
      have hsize : (((o.subM t).powS 2).size : ℚ) = (o.size : ℚ) := by
        rw [Matrix.powS, Matrix.size, Matrix.size, nrows_map, ncols_map, hnr, hnc]
      rw [hsize]
      congr 1
      rw [Matrix.powS, nrows_map, ncols_map, hnr, hnc]
      apply Finset.sum_congr rfl
      intro r hr
      rw [Finset.mem_range] at hr
      apply Finset.sum_congr rfl
      intro c hc
      rw [Finset.mem_range] at hc
      rw [entry_map _ hsub (hnr ▸ hr) (hnc ▸ hc)]
      rw [entry_subM ho ht hr (hrows ▸ hr) hc (hcols ▸ hc)]
      have h2 : ((2:ℚ)).num = 2 := rfl
      rw [h2, zpow_two, pow_two]
    · show (((o.subM t).rmulS 2).truedivS _).nrows = _
      rw [Matrix.truedivS, nrows_map, Matrix.rmulS, nrows_map, hnr]
    · show (((o.subM t).rmulS 2).truedivS _).ncols = _
      rw [Matrix.truedivS, ncols_map, Matrix.rmulS, ncols_map, hnc]
    · intro r c hr hc
      show (((o.subM t).rmulS 2).truedivS _).entry r c = _
      have hrm : ((o.subM t).rmulS 2).wf := wf_map _ hsub
      rw [Matrix.truedivS, entry_map _ hrm ?_ ?_]
      · rw [Matrix.rmulS, entry_map _ hsub (hnr ▸ hr) (hnc ▸ hc)]
        rw [entry_subM ho ht hr (hrows ▸ hr) hc (hcols ▸ hc)]
        ring
      · show r < ((o.subM t).map _).nrows
        rw [nrows_map, hnr]; exact hr
      · show c < ((o.subM t).map _).ncols
        rw [ncols_map, hnc]; exact hc
  · norm_num [MSELoss, Matrix.mean, Matrix.subM, Matrix.addM, Matrix.powS,
      Matrix.map, Matrix.interleave, pySum, Matrix.size, Matrix.nrows, Matrix.ncols]
  · norm_num [MSELoss, Matrix.subM, Matrix.addM, Matrix.rmulS, Matrix.truedivS,
      Matrix.map, Matrix.interleave, Matrix.size, Matrix.nrows, Matrix.ncols]

/-- C7 (witness): the entrywise characterization instantiated on the
spec's example pair `o = [[1],[2]]`, `t = [[1],[0]]`. -/
theorem mse_spec_witness :
    (Matrix.mk [[1],[2]]).wf ∧ (Matrix.mk [[1],[0]]).wf ∧
    (Matrix.mk [[1],[2]]).nrows = (Matrix.mk [[1],[0]]).nrows ∧
    (Matrix.mk [[1],[2]]).ncols = (Matrix.mk [[1],[0]]).ncols ∧
    (MSELoss.loss ⟨[[1],[2]]⟩ ⟨[[1],[0]]⟩ =
      (∑ r ∈ Finset.range (Matrix.mk [[1],[2]]).nrows,
        ∑ c ∈ Finset.range (Matrix.mk [[1],[2]]).ncols,
          ((Matrix.mk [[1],[2]]).entry r c - (Matrix.mk [[1],[0]]).entry r c) ^ 2) /
        ((Matrix.mk [[1],[2]]).size : ℚ) ∧
      (MSELoss.dloss ⟨[[1],[2]]⟩ ⟨[[1],[0]]⟩).nrows = (Matrix.mk [[1],[2]]).nrows ∧
      (MSELoss.dloss ⟨[[1],[2]]⟩ ⟨[[1],[0]]⟩).ncols = (Matrix.mk [[1],[2]]).ncols ∧
      ∀ r c, r < (Matrix.mk [[1],[2]]).nrows → c < (Matrix.mk [[1],[2]]).ncols →
        (MSELoss.dloss ⟨[[1],[2]]⟩ ⟨[[1],[0]]⟩).entry r c =
          2 * ((Matrix.mk [[1],[2]]).entry r c - (Matrix.mk [[1],[0]]).entry r c) /
            ((Matrix.mk [[1],[2]]).size : ℚ)) :=
  ⟨by decide, by decide, by decide, by decide,
    mse_spec.1 ⟨[[1],[2]]⟩ ⟨[[1],[0]]⟩ (by decide) (by decide) (by decide) (by decide)⟩

/-- C3 (confirmed): when the inner dimensions agree, `dot` succeeds with a
matrix of shape `(m1.rows, m2.cols)` whose `(r, c)` entry is the inner
product of row `r` of `m1` with column `c` of `m2`. -/
theorem dot_spec (m1 m2 : Matrix) (h1 : m1.wf) (h : m1.ncols = m2.nrows) :
    ∃ m, Matrix.dot m1 m2 = .ok m ∧ m.nrows = m1.nrows ∧ m.ncols = m2.ncols ∧
      ∀ r c, r < m1.nrows → c < m2.ncols →
        m.entry r c = ∑ i ∈ Finset.range m1.ncols, m1.entry r i * m2.entry i c := by
  refine ⟨⟨(List.range m1.nrows).map (fun r =>
    (List.range m2.ncols).map (fun c =>
      pySum ((List.range m1.ncols).map (fun i => m1.entry r i * m2.entry i c))))⟩,
    ?_, ?_, ?_, ?_⟩
  · rw [Matrix.dot, if_neg]
    simp [h]
  · simp [Matrix.nrows]
  · obtain ⟨k, hk⟩ : ∃ k, m1.nrows = k + 1 :=
      ⟨m1.nrows - 1, (Nat.succ_pred_eq_of_pos h1.1).symm⟩
    rw [Matrix.ncols, hk, List.range_succ_eq_map]
    simp
  · intro r c hr hc
    show (((List.range m1.nrows).map _).getD r []).getD c 0 = _
    rw [getD_range_map _ _ r hr []]
    rw [getD_range_map _ _ c hc 0]
    rw [pySum_eq_sum, sum_range_list]

/-- C3 (witness): the dot specification instantiated at
`[[1,2],[3,4]] · [[5],[6]] = [[17],[39]]`. -/
theorem dot_spec_witness :
    (Matrix.mk [[1,2],[3,4]]).wf ∧
    (Matrix.mk [[1,2],[3,4]]).ncols = (Matrix.mk [[5],[6]]).nrows ∧
    ∃ m, Matrix.dot ⟨[[1,2],[3,4]]⟩ ⟨[[5],[6]]⟩ = .ok m ∧
      m.nrows = (Matrix.mk [[1,2],[3,4]]).nrows ∧
      m.ncols = (Matrix.mk [[5],[6]]).ncols ∧
      ∀ r c, r < (Matrix.mk [[1,2],[3,4]]).nrows → c < (Matrix.mk [[5],[6]]).ncols →
        m.entry r c = ∑ i ∈ Finset.range (Matrix.mk [[1,2],[3,4]]).ncols,
          (Matrix.mk [[1,2],[3,4]]).entry r i * (Matrix.mk [[5],[6]]).entry i c :=
  ⟨by decide, by decide,
    dot_spec ⟨[[1,2],[3,4]]⟩ ⟨[[5],[6]]⟩ (by decide) (by decide)⟩

/-- C4 (amended): `dot` raises `ShapeMismatch` eagerly whenever the inner
dimensions disagree; but the elementwise matrix-matrix operations perform no
validation — `__add__` and `__mul__` with a `Matrix` operand are exactly
`interleave`, and `interleave` returns the silently truncated matrix over
the overlapping positions: its row count is the minimum of the operands' row
counts, and (for well-formed operands) its column count is the minimum of
the column counts and its entries are the pairwise images. -/
theorem shape_mismatch_behavior :
    (∀ m1 m2 : Matrix, m1.ncols ≠ m2.nrows →
      Matrix.dot m1 m2 = .error .shapeMismatch) ∧
    (∀ m1 m2 : Matrix,
      Matrix.addOp m1 (.matrix m2) = Matrix.interleave (· + ·) m1 m2 ∧
      Matrix.mulOp m1 (.matrix m2) = Matrix.interleave (· * ·) m1 m2) ∧
    (∀ (f : ℚ → ℚ → ℚ) (m1 m2 : Matrix),
      (Matrix.interleave f m1 m2).nrows = min m1.nrows m2.nrows ∧
      (m1.wf → m2.wf →
        (Matrix.interleave f m1 m2).ncols = min m1.ncols m2.ncols ∧
        ∀ r c, r < min m1.nrows m2.nrows → c < min m1.ncols m2.ncols →
          (Matrix.interleave f m1 m2).entry r c = f (m1.entry r c) (m2.entry r c))) := by
  refine ⟨?_, ?_, ?_⟩
  · intro m1 m2 hne
    rw [Matrix.dot, if_pos hne]
  · exact fun m1 m2 => ⟨rfl, rfl⟩
  · intro f m1 m2
    refine ⟨nrows_interleave f m1 m2, ?_⟩
    intro h1 h2
    refine ⟨ncols_interleave f m1 m2 h1.1 h2.1, ?_⟩
    intro r c hr hc
    rw [lt_min_iff] at hr hc
    exact entry_interleave f h1 h2 hr.1 hr.2 hc.1 hc.2

/-- C4 (witness): the amended behavior instantiated concretely — a `dot`
with mismatched inner dimensions errors; an `interleave` of a 2×2 with a
1×1 matrix has the min shape 1×1. -/
theorem shape_mismatch_behavior_witness :
    (Matrix.mk [[1,2]]).ncols ≠ (Matrix.mk [[1,2]]).nrows ∧
    Matrix.dot ⟨[[1,2]]⟩ ⟨[[1,2]]⟩ = .error .shapeMismatch ∧
    ((Matrix.interleave (· + ·) ⟨[[1,2],[3,4]]⟩ ⟨[[10]]⟩).nrows =
      min (Matrix.mk [[1,2],[3,4]]).nrows (Matrix.mk [[10]]).nrows ∧
     ((Matrix.mk [[1,2],[3,4]]).wf → (Matrix.mk [[10]]).wf →
      (Matrix.interleave (· + ·) ⟨[[1,2],[3,4]]⟩ ⟨[[10]]⟩).ncols =
        min (Matrix.mk [[1,2],[3,4]]).ncols (Matrix.mk [[10]]).ncols ∧
      ∀ r c, r < min (Matrix.mk [[1,2],[3,4]]).nrows (Matrix.mk [[10]]).nrows →
        c < min (Matrix.mk [[1,2],[3,4]]).ncols (Matrix.mk [[10]]).ncols →
        (Matrix.interleave (· + ·) ⟨[[1,2],[3,4]]⟩ ⟨[[10]]⟩).entry r c =
          (Matrix.mk [[1,2],[3,4]]).entry r c + (Matrix.mk [[10]]).entry r c)) :=
  ⟨by decide, shape_mismatch_behavior.1 ⟨[[1,2]]⟩ ⟨[[1,2]]⟩ (by decide),
    shape_mismatch_behavior.2.2 (· + ·) ⟨[[1,2],[3,4]]⟩ ⟨[[10]]⟩⟩

/-! The argmax scan: lemmas about the strict-improvement left fold. -/

theorem foldl_scanStep_spec (l : List ((ℕ × ℕ) × ℚ)) (a : (ℕ × ℕ) × ℚ) :
    (l.foldl scanStep a = a ∧ ∀ q ∈ l, q.2 ≤ a.2) ∨
    (∃ l₁ p l₂, l = l₁ ++ p :: l₂ ∧ l.foldl scanStep a = p ∧ a.2 < p.2 ∧
      (∀ q ∈ l₁, q.2 < p.2) ∧ (∀ q ∈ l₂, q.2 ≤ p.2)) := by
  induction l generalizing a with
  | nil => left; exact ⟨rfl, by simp⟩
  | cons p0 rest ih =>
      by_cases hbeat : a.2 < p0.2
      · have hstep : List.foldl scanStep a (p0 :: rest) = List.foldl scanStep p0 rest := by
          rw [List.foldl_cons]
          simp only [scanStep, if_pos hbeat]
        rcases ih p0 with ⟨heq, hall⟩ | ⟨l₁, p, l₂, hsplit, heq, hlt, hbefore, hafter⟩
        · right
          exact ⟨[], p0, rest, by simp, by rw [hstep, heq], hbeat, by simp, hall⟩
        · right
          refine ⟨p0 :: l₁, p, l₂, by simp [hsplit], by rw [hstep, heq],
            lt_trans hbeat hlt, ?_, hafter⟩
          intro q hq
          rcases List.mem_cons.1 hq with rfl | hq2
          · exact hlt
          · exact hbefore q hq2
      · have hstep : List.foldl scanStep a (p0 :: rest) = List.foldl scanStep a rest := by
          rw [List.foldl_cons]
          simp only [scanStep, if_neg hbeat]
        rcases ih a with ⟨heq, hall⟩ | ⟨l₁, p, l₂, hsplit, heq, hlt, hbefore, hafter⟩
        · left
          refine ⟨by rw [hstep, heq], ?_⟩
          intro q hq
          rcases List.mem_cons.1 hq with rfl | hq2
          · exact not_lt.1 hbeat
          · exact hall q hq2
        · right
          refine ⟨p0 :: l₁, p, l₂, by simp [hsplit], by rw [hstep, heq], hlt, ?_, hafter⟩
          intro q hq
          rcases List.mem_cons.1 hq with rfl | hq2
          · exact lt_of_le_of_lt (not_lt.1 hbeat) hlt
          · exact hbefore q hq2

theorem mem_enumPairs {m : Matrix} {rc : ℕ × ℕ} {v : ℚ}
    (hmem : (rc, v) ∈ m.enumPairs) :
    rc.1 < m.nrows ∧ rc.2 < (m.data.getD rc.1 []).length ∧ v = m.entry rc.1 rc.2 := by
  simp only [Matrix.enumPairs, List.mem_flatten, List.mem_map] at hmem
  obtain ⟨l, ⟨⟨r, row⟩, hrow, rfl⟩, hin⟩ := hmem
  simp only [List.mem_map] at hin
  obtain ⟨⟨c, e⟩, hce, hpair⟩ := hin
  obtain ⟨hr, hrowval⟩ := List.mem_enum hrow
  obtain ⟨hc, heval⟩ := List.mem_enum hce
  have hrc : rc = (r, c) := by
    have := congrArg Prod.fst hpair
    simpa using this.symm
  have hv : v = e := by
    have := congrArg Prod.snd hpair
    simpa using this.symm
  subst hrc hv
  refine ⟨hr, ?_, ?_⟩
  · rw [List.getD_eq_getElem _ _ hr, ← hrowval]
    exact hc
  · rw [Matrix.entry, List.getD_eq_getElem _ _ hr, ← hrowval,
      List.getD_eq_getElem _ _ hc]
    exact heval

theorem enumPairs_mem_of_lt {m : Matrix} (h : m.wf) {r c : ℕ}
    (hr : r < m.nrows) (hc : c < m.ncols) :
    ((r, c), m.entry r c) ∈ m.enumPairs := by
  have hcl : c < (m.data.getD r []).length := by
    rw [row_length_eq h hr]; exact hc
  rw [List.getD_eq_getElem _ _ hr] at hcl
  simp only [Matrix.enumPairs, List.mem_flatten, List.mem_map]
  refine ⟨(m.data[r].enum).map (fun q => ((r, q.1), q.2)), ⟨(r, m.data[r]), ?_, rfl⟩, ?_⟩
  · have hlen : r < m.data.enum.length := by rw [List.enum_length]; exact hr
    have := List.getElem_enum m.data r hlen
    rw [← this]
    exact List.getElem_mem hlen
  · simp only [List.mem_map]
    refine ⟨(c, m.data[r][c]), ?_, ?_⟩
    · have hlen : c < m.data[r].enum.length := by rw [List.enum_length]; exact hcl
      have := List.getElem_enum m.data[r] c hlen
      rw [← this]
      exact List.getElem_mem hlen
    · rw [Matrix.entry, List.getD_eq_getElem _ _ hr, List.getD_eq_getElem _ _ hcl]

theorem enumPairs_head {m : Matrix} (h : m.wf) :
    ∃ rest, m.enumPairs = ((0, 0), (m.data.headD []).getD 0 0) :: rest := by
  obtain ⟨r0, rs, hdata⟩ : ∃ r0 rs, m.data = r0 :: rs := by
    cases hd : m.data with
    | nil =>
        exfalso
        have h1 := h.1
        simp [Matrix.nrows, hd] at h1
    | cons a b => exact ⟨a, b, rfl⟩
  obtain ⟨e, es, hrow⟩ : ∃ e es, r0 = e :: es := by
    cases hrw : r0 with
    | nil =>
        exfalso
        have h2 := h.2.1
        simp [Matrix.ncols, hdata, hrw] at h2
    | cons a b => exact ⟨a, b, rfl⟩

  refine ⟨(List.enumFrom 1 es).map (fun q => ((0, q.1), q.2)) ++
    ((List.enumFrom 1 rs).map
      (fun p => p.2.enum.map (fun q => ((p.1, q.1), q.2)))).flatten, ?_⟩
  simp [Matrix.enumPairs, hdata, hrow, List.enum_cons, List.enumFrom_cons]

/-- C8 (confirmed): for every well-formed matrix, `argmax` returns in-range
coordinates of a maximal entry, and in the row-major enumeration of the
matrix every pair strictly before the returned one has a strictly smaller
value (so the first maximum is kept on ties); in particular
`Matrix([[1,3],[3,2]]).argmax() = (0,1)`, not `(1,0)`. -/
theorem argmax_first_max :
    (∀ m : Matrix, m.wf →
      m.argmax.1 < m.nrows ∧ m.argmax.2 < m.ncols ∧
      (∀ r c, r < m.nrows → c < m.ncols →
        m.entry r c ≤ m.entry m.argmax.1 m.argmax.2) ∧
      (∃ l₁ l₂, m.enumPairs = l₁ ++ (m.argmax, m.entry m.argmax.1 m.argmax.2) :: l₂ ∧
        ∀ q ∈ l₁, q.2 < m.entry m.argmax.1 m.argmax.2)) ∧
    Matrix.argmax ⟨[[1, 3], [3, 2]]⟩ = (0, 1) := by
  constructor
  · intro m h
    obtain ⟨rest, hsplit0⟩ := enumPairs_head h
    set a0 : (ℕ × ℕ) × ℚ := ((0, 0), (m.data.headD []).getD 0 0) with ha0
    have ha0mem : a0 ∈ m.enumPairs := by rw [hsplit0]; simp
    have ha0entry : a0.2 = m.entry 0 0 := (mem_enumPairs ha0mem).2.2
    have hargdef : m.argmax = (m.enumPairs.foldl scanStep a0).1 := rfl
    have hfold0 : m.enumPairs.foldl scanStep a0 = rest.foldl scanStep a0 := by
      rw [hsplit0, List.foldl_cons]
      simp [scanStep]
    rcases foldl_scanStep_spec rest a0 with
      ⟨heq, hall⟩ | ⟨l₁, p, l₂, hsplit, heq, hlt, hbefore, hafter⟩
    · have hres : m.enumPairs.foldl scanStep a0 = a0 := by rw [hfold0, heq]
      have harg : m.argmax = (0, 0) := by rw [hargdef, hres]
      have hentry : m.entry m.argmax.1 m.argmax.2 = a0.2 := by
        rw [harg]; exact ha0entry.symm
      refine ⟨by rw [harg]; exact h.1, by rw [harg]; exact h.2.1, ?_, ?_⟩
      · intro r c hr hc
        have hmem := enumPairs_mem_of_lt h hr hc
        rw [hsplit0] at hmem
        rcases List.mem_cons.1 hmem with hhead | htail
        · have : m.entry r c = a0.2 := (congrArg Prod.snd hhead).symm ▸ rfl
          rw [hentry]
          rw [show m.entry r c = a0.2 from congrArg Prod.snd hhead]
        · rw [hentry]
          exact hall _ htail
      · refine ⟨[], rest, ?_, by simp⟩
        rw [hsplit0, hentry, harg]
        rfl
    · have hres : m.enumPairs.foldl scanStep a0 = p := by rw [hfold0, heq]
      have harg : m.argmax = p.1 := by rw [hargdef, hres]
      have hpmem : p ∈ m.enumPairs := by
        rw [hsplit0, hsplit]
        simp
      have hpfacts := @mem_enumPairs m p.1 p.2 (by simpa using hpmem)
      have hp1 : p.1.1 < m.nrows := hpfacts.1
      have hp2 : p.1.2 < m.ncols := by
        have := hpfacts.2.1
        rwa [row_length_eq h hp1] at this
      have hentry : m.entry m.argmax.1 m.argmax.2 = p.2 := by
        rw [harg]; exact hpfacts.2.2.symm
      refine ⟨by rw [harg]; exact hp1, by rw [harg]; exact hp2, ?_, ?_⟩
      · intro r c hr hc
        have hmem := enumPairs_mem_of_lt h hr hc
        rw [hsplit0, hsplit] at hmem
        rw [hentry]
        rcases List.mem_cons.1 hmem with hhead | htail
        · rw [show m.entry r c = a0.2 from congrArg Prod.snd hhead]
          exact le_of_lt hlt
        · rcases List.mem_append.1 htail with hin1 | hin2
          · exact le_of_lt (hbefore _ hin1)
          · rcases List.mem_cons.1 hin2 with hp | hin3
            · exact le_of_eq (congrArg Prod.snd hp)
            · exact hafter _ hin3
      · refine ⟨a0 :: l₁, l₂, ?_, ?_⟩
        · rw [hsplit0, hsplit, hentry, harg]
          simp
        · intro q hq
          rw [hentry]
          rcases List.mem_cons.1 hq with rfl | hq2
          · exact hlt
          · exact hbefore q hq2
  · norm_num [Matrix.argmax, Matrix.enumPairs, scanStep, List.enum,
      List.enumFrom, List.foldl]

/-- C8 (witness): the first-maximum characterization instantiated on the
spec's tie-break example `[[1,3],[3,2]]`. -/
theorem argmax_first_max_witness :
    (Matrix.mk [[1, 3], [3, 2]]).wf ∧
    ((Matrix.mk [[1, 3], [3, 2]]).argmax.1 < (Matrix.mk [[1, 3], [3, 2]]).nrows ∧
     (Matrix.mk [[1, 3], [3, 2]]).argmax.2 < (Matrix.mk [[1, 3], [3, 2]]).ncols ∧
     (∀ r c, r < (Matrix.mk [[1, 3], [3, 2]]).nrows →
        c < (Matrix.mk [[1, 3], [3, 2]]).ncols →
        (Matrix.mk [[1, 3], [3, 2]]).entry r c ≤
          (Matrix.mk [[1, 3], [3, 2]]).entry (Matrix.mk [[1, 3], [3, 2]]).argmax.1
            (Matrix.mk [[1, 3], [3, 2]]).argmax.2) ∧
     (∃ l₁ l₂, (Matrix.mk [[1, 3], [3, 2]]).enumPairs =
        l₁ ++ ((Matrix.mk [[1, 3], [3, 2]]).argmax,
          (Matrix.mk [[1, 3], [3, 2]]).entry (Matrix.mk [[1, 3], [3, 2]]).argmax.1
            (Matrix.mk [[1, 3], [3, 2]]).argmax.2) :: l₂ ∧
        ∀ q ∈ l₁, q.2 < (Matrix.mk [[1, 3], [3, 2]]).entry
          (Matrix.mk [[1, 3], [3, 2]]).argmax.1 (Matrix.mk [[1, 3], [3, 2]]).argmax.2)) :=
  ⟨by decide, argmax_first_max.1 ⟨[[1, 3], [3, 2]]⟩ (by decide)⟩

/-! The training equivalence: the structural recursion of `train` against
the fold-style rendering of §4.4. -/

theorem map_bind {ε α β γ : Type} (x : Except ε α) (f : α → Except ε β) (g : β → γ) :
    (x >>= f).map g = x >>= fun a => (f a).map g := by
  cases x <;> rfl

theorem backSpecStep_eq (lr : ℚ) (acc : List Layer × Matrix) (p : Layer × Matrix) :
    backSpecStep lr acc p =
      (backStep lr p.1 p.2 acc.2).map (fun q => (q.1 :: acc.1, q.2)) := by
  rw [backSpecStep, backStep]
  simp only [map_bind, map_ok]

theorem foldlM_backSpec (lr : ℚ) (pairs : List (Layer × Matrix)) (dx : Matrix)
    (done : List Layer) :
    (pairs.foldlM (backSpecStep lr) (done, dx)).map (fun acc => acc.1) =
      (backLoop lr pairs dx).map (fun ls => ls.reverse ++ done) := by
  induction pairs generalizing dx done with
  | nil => simp [List.foldlM_nil, backLoop]
  | cons p rest ih =>
      obtain ⟨layer, xi⟩ := p
      rw [List.foldlM_cons, backSpecStep_eq]
      cases hs : backStep lr layer xi dx with
      | error e => simp [backLoop, hs]
      | ok q =>
          obtain ⟨l2, dx2⟩ := q
          simp only [map_ok, ok_bind]
          rw [ih dx2 (l2 :: done)]
          rw [backLoop]
          rw [hs]
          simp only [ok_bind]
          cases backLoop lr rest dx2 <;> simp

theorem foldlM_forwardRetain (x0 : Matrix) (layers : List Layer) (a : Matrix)
    (stack : List Matrix) :
    layers.foldlM
      (fun xs layer => do
        let out ← layer.forward_pass (xs.headD x0)
        .ok (out :: xs)) (a :: stack) =
      (forwardTrace layers a).map (fun pr => pr.2 :: (pr.1.reverse ++ stack)) := by
  induction layers generalizing a stack with
  | nil => simp [List.foldlM_nil, forwardTrace]
  | cons l ls ih =>
      rw [List.foldlM_cons]
      simp only [List.headD_cons, bind_assoc, ok_bind]
      cases hf : l.forward_pass a with
      | error e => simp [forwardTrace, hf]
      | ok y =>
          simp only [ok_bind]
          rw [ih y (a :: stack)]
          rw [forwardTrace, hf]
          simp only [ok_bind]
          cases forwardTrace ls y <;> simp

theorem forwardRetain_eq (layers : List Layer) (x : Matrix) :
    forwardRetain layers x =
      (forwardTrace layers x).map (fun pr => pr.2 :: pr.1.reverse) := by
  rw [forwardRetain]
  have h := foldlM_forwardRetain x layers x []
  simpa using h

/-- C1 (confirmed): one `train` call is exactly the algorithm of §4.4 — a
forward sweep retaining every layer input, then a backward sweep over the
layers in reverse order that recomputes the pre-activation, forms
`dBias = df(y) * dL`, `dWeight = dot(dBias, transpose(x_i))`, and replaces
`W` and `b` by `W - lr*dWeight` and `b - lr*dBias` immediately before the
next (shallower) layer is processed: the structural-recursion translation of
the code equals the fold-style rendering of the claim's steps. -/
theorem train_eq_trainSpec (net : NeuralNetwork) (x t : Matrix) :
    NeuralNetwork.train net x t = trainSpec net x t := by
  rw [NeuralNetwork.train, trainSpec, forwardRetain_eq]
  cases hf : forwardTrace net.layers x with
  | error e => simp
  | ok pr =>
      obtain ⟨ins, out⟩ := pr
      simp only [map_ok, ok_bind]
      show _ = ((net.layers.reverse.zip ins.reverse).foldlM (backSpecStep net.lr)
          ([], net.loss_function.dloss out t) >>=
        fun res => Except.ok { net with layers := res.1 })
      have hfold := foldlM_backSpec net.lr (net.layers.reverse.zip ins.reverse)
        (net.loss_function.dloss out t) []
      have e1 : ((net.layers.reverse.zip ins.reverse).foldlM (backSpecStep net.lr)
            ([], net.loss_function.dloss out t) >>=
          fun res => Except.ok { net with layers := res.1 }) =
          (((net.layers.reverse.zip ins.reverse).foldlM (backSpecStep net.lr)
            ([], net.loss_function.dloss out t)).map (fun acc => acc.1) >>=
          fun l => Except.ok { net with layers := l }) := by
        cases (net.layers.reverse.zip ins.reverse).foldlM (backSpecStep net.lr)
          ([], net.loss_function.dloss out t) <;> rfl
      rw [e1, hfold]
      cases backLoop net.lr (net.layers.reverse.zip ins.reverse)
        (net.loss_function.dloss out t) <;> simp

/-- C2 (amended): in each backward step of `train`, with `dBias` the
elementwise product of `df` at the recomputed pre-activation with the
incoming gradient, the updated parameters are `W - lr*dWeight` and
`b - lr*dBias`, and the gradient propagated to the next (shallower) layer
satisfies `dot(transpose(W'), dBias) = dx'` for the POST-update weight
matrix `W'` — the just-assigned weights of the returned layer, not the
pre-update ones. -/
theorem backstep_propagates_through_updated_weights
    (lr : ℚ) (layer : Layer) (xi dx : Matrix) (l2 : Layer) (dx2 : Matrix)
    (h : backStep lr layer xi dx = .ok (l2, dx2)) :
    ∃ wx dW,
      Matrix.dot layer.W xi = .ok wx ∧
      Matrix.dot ((layer.act_function.df (wx.addM layer.b)).mulM dx) xi.t = .ok dW ∧
      l2.W = layer.W.subM (dW.rmulS lr) ∧
      l2.b = layer.b.subM (((layer.act_function.df (wx.addM layer.b)).mulM dx).rmulS lr) ∧
      Matrix.dot l2.W.t ((layer.act_function.df (wx.addM layer.b)).mulM dx) = .ok dx2 := by
  rw [backStep] at h
  cases h1 : Matrix.dot layer.W xi with
  | error e => rw [h1] at h; simp at h
  | ok wx =>
      rw [h1] at h
      simp only [ok_bind] at h
      cases h2 : Matrix.dot ((layer.act_function.df (wx.addM layer.b)).mulM dx) xi.t with
      | error e => rw [h2] at h; simp at h
      | ok dW =>
          rw [h2] at h
          simp only [ok_bind] at h
          cases h3 : Matrix.dot (layer.W.subM (dW.rmulS lr)).t
              ((layer.act_function.df (wx.addM layer.b)).mulM dx) with
          | error e => rw [h3] at h; simp at h
          | ok d2 =>
              rw [h3] at h
              simp only [ok_bind] at h
              have hinj := h
              rw [Except.ok.injEq, Prod.mk.injEq] at hinj
              obtain ⟨hl, hd⟩ := hinj
              refine ⟨wx, dW, rfl, h2, ?_, ?_, ?_⟩
              · rw [← hl]
              · rw [← hl]
              · rw [← hl, ← hd]
                exact h3

-- C2 (witness): the amended propagation property evaluated on a concrete
-- backward step of the probe layer.
set_option maxHeartbeats 1000000 in
theorem backstep_propagates_witness :
    backStep 1 probeLayer ⟨[[1]]⟩ ⟨[[2]]⟩ =
      .ok (⟨1, 1, LeakyReLU 1, ⟨[[-1]]⟩, ⟨[[-2]]⟩⟩, ⟨[[-2]]⟩) ∧
    ∃ wx dW,
      Matrix.dot probeLayer.W ⟨[[1]]⟩ = .ok wx ∧
      Matrix.dot ((probeLayer.act_function.df (wx.addM probeLayer.b)).mulM ⟨[[2]]⟩)
        (Matrix.mk [[1]]).t = .ok dW ∧
      (Layer.mk 1 1 (LeakyReLU 1) ⟨[[-1]]⟩ ⟨[[-2]]⟩).W = probeLayer.W.subM (dW.rmulS 1) ∧
      (Layer.mk 1 1 (LeakyReLU 1) ⟨[[-1]]⟩ ⟨[[-2]]⟩).b = probeLayer.b.subM
        (((probeLayer.act_function.df (wx.addM probeLayer.b)).mulM ⟨[[2]]⟩).rmulS 1) ∧
      Matrix.dot (Layer.mk 1 1 (LeakyReLU 1) ⟨[[-1]]⟩ ⟨[[-2]]⟩).W.t
        ((probeLayer.act_function.df (wx.addM probeLayer.b)).mulM ⟨[[2]]⟩) =
        .ok ⟨[[-2]]⟩ := by
  have hEval : backStep 1 probeLayer ⟨[[1]]⟩ ⟨[[2]]⟩ =
      .ok (⟨1, 1, LeakyReLU 1, ⟨[[-1]]⟩, ⟨[[-2]]⟩⟩, ⟨[[-2]]⟩) := by
    norm_num [backStep, probeLayer, Matrix.dot, pySum, List.foldl, List.range_succ,
      Matrix.entry, Matrix.addM, Matrix.mulM, Matrix.subM, Matrix.rmulS,
      Matrix.interleave, Matrix.map, Matrix.t, LeakyReLU, Matrix.maximum,
      Matrix.gtS, Matrix.nrows, Matrix.ncols]
  exact ⟨hEval, backstep_propagates_through_updated_weights 1 probeLayer
    ⟨[[1]]⟩ ⟨[[2]]⟩ ⟨1, 1, LeakyReLU 1, ⟨[[-1]]⟩, ⟨[[-2]]⟩⟩ ⟨[[-2]]⟩ hEval⟩

end NNNI
